import Mathlib

/-!
Shallow embedding of src/pi_by_digits.go.

The program computes the decimal digits of pi with Machin's formula
  pi = 4 * (4 * arccot(5) - arccot(239))
in fixed-point integer arithmetic over Go's math/big integers.

Modelling decisions, all taken from the Go source:
* Go's big.Int.Div is Euclidean division (quotient such that the remainder
  satisfies 0 <= r < |divisor|); in this Lean toolchain the `Div Int`
  instance is Int.ediv (the same Euclidean convention), so every
  big.Int.Div site is embedded as `/` on Int.
* Go's big.Int.Exp(x, y, nil) returns 1 whenever the exponent y is
  negative (or zero); goExp below reproduces that.
* The `for` loop of arccot is modelled with explicit fuel returning
  Option Int, where `none` means the fuel was exhausted.  This is needed
  because the Go loop genuinely diverges on inputs outside the documented
  domain (for a negative unity the term stays at -1 forever), so no total
  function on Int can model it everywhere.  The fuel passed by `arccot`,
  (unity / x).toNat + 1, is an upper bound on the iteration count: the
  loop variable xpower starts at unity / x and strictly decreases on
  every continuing iteration (proved in arccotLoop_isSome below), so on
  the documented domain the fuel is never exhausted and the Option is
  always `some`.
-/

/-- State of the series loop of arccot: the running sum, the current
power xpower, the odd counter n, and the alternating sign. -/
structure ArccotState where
  sum : Int
  xpower : Int
  n : Int
  sign : Int

/-- The candidate next series term, as the loop body computes it:
the updated xpower (already divided by square) divided by the counter n. -/
def arccotTerm (square : Int) (s : ArccotState) : Int :=
  s.xpower / square / s.n

/-- One full continuing iteration of the loop body of arccot:
xpower := xpower / square; sum := sum + sign * term; sign := -sign;
n := n + 2. -/
def arccotIter (square : Int) (s : ArccotState) : ArccotState :=
  { sum := s.sum + s.sign * arccotTerm square s
    xpower := s.xpower / square
    n := s.n + 2
    sign := -s.sign }

/-- The series loop of arccot: stop and return sum at the first zero
term, otherwise perform one iteration and continue.  `none` signals
exhausted fuel (the Go loop has no such case; arccot supplies enough
fuel for every input in the documented domain). -/
def arccotLoop (square : Int) : Nat → ArccotState → Option Int
  | 0, _ => none
  | fuel + 1, s =>
    if arccotTerm square s = 0 then some s.sum
    else arccotLoop square fuel (arccotIter square s)

/-- Initial loop state of arccot: sum and xpower both start at
unity / x, the counter n at 3 and the sign at -1. -/
def arccotInit (x unity : Int) : ArccotState :=
  { sum := unity / x, xpower := unity / x, n := 3, sign := -1 }

/-- The function arccot of the Go source: evaluate the alternating
series for arccot(x) in fixed point at scale unity. -/
def arccot (x unity : Int) : Option Int :=
  arccotLoop (x * x) ((unity / x).toNat + 1) (arccotInit x unity)

/-- Go's big.Int.Exp with a nil modulus: x^y, except that a negative
exponent yields 1. -/
def goExp (x y : Int) : Int :=
  if y < 0 then 1 else x ^ y.toNat

/-- The function π of the Go source: unity = 10^(places+10), the two
arccot calls, the Machin combination 4 * (4*arccot(5) - arccot(239)),
and removal of the ten guard digits by dividing by 10^10. -/
def π (places : Int) : Option Int :=
  match arccot 5 (goExp 10 (places + 10)), arccot 239 (goExp 10 (places + 10)) with
  | some left, some right => some (4 * (left * 4 - right) / goExp 10 10)
  | _, _ => none

/-- Variant of arccotTerm with both divisions truncating toward zero
(Int.tdiv) instead of Euclidean; used to state that the program only
ever divides non-negative quantities, where the two conventions agree. -/
def arccotTermT (square : Int) (s : ArccotState) : Int :=
  (s.xpower.tdiv square).tdiv s.n

/-- Variant of arccotIter with truncating division. -/
def arccotIterT (square : Int) (s : ArccotState) : ArccotState :=
  { sum := s.sum + s.sign * arccotTermT square s
    xpower := s.xpower.tdiv square
    n := s.n + 2
    sign := -s.sign }

/-- Variant of arccotLoop with truncating division. -/
def arccotLoopT (square : Int) : Nat → ArccotState → Option Int
  | 0, _ => none
  | fuel + 1, s =>
    if arccotTermT square s = 0 then some s.sum
    else arccotLoopT square fuel (arccotIterT square s)

/-- Variant of arccot with truncating division. -/
def arccotT (x unity : Int) : Option Int :=
  arccotLoopT (x * x) ((unity.tdiv x).toNat + 1)
    { sum := unity.tdiv x, xpower := unity.tdiv x, n := 3, sign := -1 }

/-- Variant of π with truncating division. -/
def piT (places : Int) : Option Int :=
  match arccotT 5 (goExp 10 (places + 10)), arccotT 239 (goExp 10 (places + 10)) with
  | some left, some right => some ((4 * (left * 4 - right)).tdiv (goExp 10 10))
  | _, _ => none

/-! Helper lemmas about Euclidean division on Int. -/

/-- Dividing a non-negative integer by a larger positive divisor gives a
smaller (or equal) quotient. -/
lemma ediv_le_ediv_left_of_le {a b c : Int} (ha : 0 ≤ a) (hb : 0 < b)
    (hbc : b ≤ c) : a / c ≤ a / b := by
  rw [Int.le_ediv_iff_mul_le hb]
  have hc : 0 < c := lt_of_lt_of_le hb hbc
  have hq : 0 ≤ a / c := Int.ediv_nonneg ha (le_of_lt hc)
  have h1 : a / c * b ≤ a / c * c := mul_le_mul_of_nonneg_left hbc hq
  have h2 : a / c * c + a % c = a := Int.ediv_add_emod' a c
  have h3 : 0 ≤ a % c := Int.emod_nonneg a (by omega)
  linarith

/-- Nested Euclidean divisions of non-negative integers compose into a
single division by the product of the divisors. -/
lemma ediv_ediv_of_nonneg {a b c : Int} (ha : 0 ≤ a) (hb : 0 ≤ b)
    (hc : 0 ≤ c) : a / b / c = a / (b * c) := by
  obtain ⟨m, rfl⟩ := Int.eq_ofNat_of_zero_le ha
  obtain ⟨n, rfl⟩ := Int.eq_ofNat_of_zero_le hb
  obtain ⟨k, rfl⟩ := Int.eq_ofNat_of_zero_le hc
  exact_mod_cast Nat.div_div_eq_div_mul m n k

/-! Helper lemmas about the arccot loop. -/

/-- On the documented domain the loop makes progress: with fuel larger
than the current xpower (which strictly decreases on every continuing
iteration) the loop always reaches a zero term and returns a value. -/
lemma arccotLoop_isSome {square : Int} (hsq : 4 ≤ square) :
    ∀ (fuel : Nat) (s : ArccotState), 0 ≤ s.xpower → 3 ≤ s.n →
      s.xpower.toNat < fuel → (arccotLoop square fuel s).isSome := by
  intro fuel
  induction fuel with
  | zero => intro s _ _ h; omega
  | succ f ih =>
    intro s hx hn hlt
    rw [arccotLoop]
    by_cases ht : arccotTerm square s = 0
    · rw [if_pos ht]; rfl
    · rw [if_neg ht]
      have hx'0 : 0 ≤ s.xpower / square := Int.ediv_nonneg hx (by omega)
      have hterm : 1 ≤ s.xpower / square / s.n := by
        have h0 : 0 ≤ s.xpower / square / s.n := Int.ediv_nonneg hx'0 (by omega)
        have he : arccotTerm square s = s.xpower / square / s.n := rfl
        omega
      have hxn : s.n ≤ s.xpower / square := by
        have := (Int.le_ediv_iff_mul_le (show (0:Int) < s.n by omega)).mp hterm
        omega
      have hmul : square * (s.xpower / square) ≤ s.xpower := by
        have h2 := Int.ediv_add_emod s.xpower square
        have h3 : 0 ≤ s.xpower % square := Int.emod_nonneg _ (by omega)
        linarith
      have hfour : 4 * (s.xpower / square) ≤ square * (s.xpower / square) :=
        mul_le_mul_of_nonneg_right hsq hx'0
      have hdec : s.xpower / square < s.xpower := by linarith
      have hit : (arccotIter square s).xpower = s.xpower / square := rfl
      apply ih (arccotIter square s)
      · rw [hit]; exact hx'0
      · show 3 ≤ s.n + 2; omega
      · rw [hit]; omega

/-- Termination of arccot on the documented domain: the fuel chosen by
arccot is always sufficient, so the result is some value. -/
lemma arccot_isSome {x unity : Int} (hx : 2 ≤ x) (hu : 0 ≤ unity) :
    ∃ r : Int, arccot x unity = some r := by
  have hsq : (4:Int) ≤ x * x := by nlinarith
  have h0 : 0 ≤ unity / x := Int.ediv_nonneg hu (by omega)
  have h := arccotLoop_isSome hsq ((unity / x).toNat + 1) (arccotInit x unity)
    h0 (by show (3:Int) ≤ 3; omega) (by show (unity / x).toNat < _; omega)
  exact Option.isSome_iff_exists.mp h

/-- Sandwich bounds for the loop: truncated alternating series with
weakly decreasing non-negative terms stay within one upcoming term of
the running sum, on the side the current sign dictates. -/
lemma arccotLoop_bounds {square : Int} (hsq : 1 ≤ square) :
    ∀ (fuel : Nat) (s : ArccotState) (r : Int), 0 ≤ s.xpower → 1 ≤ s.n →
      (s.sign = 1 ∨ s.sign = -1) →
      arccotLoop square fuel s = some r →
      (s.sign = -1 → s.sum - arccotTerm square s ≤ r ∧ r ≤ s.sum) ∧
      (s.sign = 1 → s.sum ≤ r ∧ r ≤ s.sum + arccotTerm square s) := by
  intro fuel
  induction fuel with
  | zero => intro s r _ _ _ h; simp [arccotLoop] at h
  | succ f ih =>
    intro s r hx hn hsign hr
    rw [arccotLoop] at hr
    by_cases ht : arccotTerm square s = 0
    · rw [if_pos ht] at hr
      have hrs : s.sum = r := Option.some.inj hr
      subst hrs
      constructor
      · intro _; rw [ht]; omega
      · intro _; rw [ht]; omega
    · rw [if_neg ht] at hr
      have hx'0 : 0 ≤ s.xpower / square := Int.ediv_nonneg hx (by omega)
      have ht0 : 0 ≤ arccotTerm square s := Int.ediv_nonneg hx'0 (by omega)
      have hterm : arccotTerm square s = s.xpower / square / s.n := rfl
      have hdec : arccotTerm square (arccotIter square s) ≤ arccotTerm square s := by
        have h1 : s.xpower / square / square ≤ s.xpower / square :=
          Int.ediv_le_self square hx'0
        have h2 : s.xpower / square / square / (s.n + 2) ≤
            s.xpower / square / (s.n + 2) := Int.ediv_le_ediv (by omega) h1
        have h3 : s.xpower / square / (s.n + 2) ≤ s.xpower / square / s.n :=
          ediv_le_ediv_left_of_le hx'0 (by omega) (by omega)
        have h4 : arccotTerm square (arccotIter square s) =
            s.xpower / square / square / (s.n + 2) := rfl
        rw [h4, hterm]
        exact le_trans h2 h3
      have hiter := ih (arccotIter square s) r
        (show 0 ≤ s.xpower / square from hx'0)
        (show 1 ≤ s.n + 2 by omega)
        (by rcases hsign with h | h
            · right; show -s.sign = -1; rw [h]
            · left; show -s.sign = 1; rw [h]; rfl)
        hr
      rcases hsign with hpos | hneg
      · refine ⟨fun habs => absurd (hpos.symm.trans habs) (by decide), fun _ => ?_⟩
        have hsgn : (arccotIter square s).sign = -1 := by
          show -s.sign = -1; rw [hpos]
        have hb := hiter.1 hsgn
        have hsum : (arccotIter square s).sum =
            s.sum + s.sign * arccotTerm square s := rfl
        rw [hsum, hpos] at hb
        constructor
        · have := hb.2; linarith [hb.1]
        · have := hb.2; linarith
      · refine ⟨fun _ => ?_, fun habs => absurd (hneg.symm.trans habs) (by decide)⟩
        have hsgn : (arccotIter square s).sign = 1 := by
          show -s.sign = 1; rw [hneg]; rfl
        have hb := hiter.2 hsgn
        have hsum : (arccotIter square s).sum =
            s.sum + s.sign * arccotTerm square s := rfl
        rw [hsum, hneg] at hb
        constructor
        · have := hb.1; linarith
        · have := hb.2; linarith [hdec]

/-- Bounds for arccot itself: the result lies between the first term
minus the second candidate term, and the first term. -/
lemma arccot_bounds {x unity r : Int} (hx : 2 ≤ x) (hu : 0 ≤ unity)
    (h : arccot x unity = some r) :
    unity / x - unity / x / (x * x) / 3 ≤ r ∧ r ≤ unity / x := by
  have hsq : (1:Int) ≤ x * x := by nlinarith
  have h0 : 0 ≤ unity / x := Int.ediv_nonneg hu (by omega)
  have hb := arccotLoop_bounds hsq ((unity / x).toNat + 1) (arccotInit x unity) r
    h0 (show (1:Int) ≤ 3 by omega) (Or.inr rfl) h
  have h1 := hb.1 rfl
  exact h1

/-! Helper lemmas about goExp and π. -/

/-- goExp with base 10 is never negative. -/
lemma goExp_nonneg (y : Int) : 0 ≤ goExp 10 y := by
  unfold goExp
  split
  · omega
  · positivity

/-- For a non-negative exponent goExp is the ordinary power. -/
lemma goExp_eq_pow {y : Int} (hy : 0 ≤ y) : goExp 10 y = 10 ^ y.toNat :=
  if_neg (by omega)

/-- Evaluation of π on a non-negative argument: both arccot calls return
a value and π combines them exactly as the source does. -/
lemma pi_eval {places : Int} (_hp : 0 ≤ places) :
    ∃ a5 a239 : Int,
      arccot 5 (goExp 10 (places + 10)) = some a5 ∧
      arccot 239 (goExp 10 (places + 10)) = some a239 ∧
      π places = some (4 * (a5 * 4 - a239) / goExp 10 10) := by
  obtain ⟨a5, h5⟩ := arccot_isSome (x := 5) (by norm_num) (goExp_nonneg (places + 10))
  obtain ⟨a9, h9⟩ := arccot_isSome (x := 239) (by norm_num) (goExp_nonneg (places + 10))
  refine ⟨a5, a9, h5, h9, ?_⟩
  unfold π
  rw [h5, h9]

/-- The scaled Machin combination is non-negative, from the sandwich
bounds of the two series. -/
lemma machin_combination_nonneg {u a5 a9 : Int} (hu : 0 ≤ u)
    (h5 : arccot 5 u = some a5) (h9 : arccot 239 u = some a9) :
    0 ≤ 4 * (a5 * 4 - a9) := by
  have b5 := arccot_bounds (x := 5) (by norm_num) hu h5
  have b9 := arccot_bounds (x := 239) (by norm_num) hu h9
  norm_num at b5 b9
  omega

/-! Helper lemmas relating the truncating-division variants to the
Euclidean-division functions. -/

/-- On states with non-negative xpower and positive counter, every
division the loop performs has non-negative dividend and divisor, so the
truncating variant of the loop agrees with the Euclidean one. -/
lemma arccotLoopT_eq_arccotLoop {square : Int} (hsq : 1 ≤ square) :
    ∀ (fuel : Nat) (s : ArccotState), 0 ≤ s.xpower → 1 ≤ s.n →
      arccotLoopT square fuel s = arccotLoop square fuel s := by
  intro fuel
  induction fuel with
  | zero => intro s _ _; rfl
  | succ f ih =>
    intro s hx hn
    have hx' : 0 ≤ s.xpower / square := Int.ediv_nonneg hx (by omega)
    have ht : arccotTermT square s = arccotTerm square s := by
      unfold arccotTermT arccotTerm
      rw [Int.tdiv_eq_ediv hx (by omega), Int.tdiv_eq_ediv hx' (by omega)]
    have hi : arccotIterT square s = arccotIter square s := by
      unfold arccotIterT arccotIter
      rw [ht, Int.tdiv_eq_ediv hx (by omega)]
    rw [arccotLoopT, arccotLoop, ht, hi]
    by_cases h0 : arccotTerm square s = 0
    · rw [if_pos h0, if_pos h0]
    · rw [if_neg h0, if_neg h0]
      exact ih (arccotIter square s)
        (show 0 ≤ s.xpower / square from hx') (show 1 ≤ s.n + 2 by omega)

/-- arccotT agrees with arccot whenever x is at least 2 and unity is
non-negative. -/
lemma arccotT_eq_arccot {x unity : Int} (hx : 2 ≤ x) (hu : 0 ≤ unity) :
    arccotT x unity = arccot x unity := by
  have hsq : (1:Int) ≤ x * x := by nlinarith
  have hfirst : unity.tdiv x = unity / x := Int.tdiv_eq_ediv hu (by omega)
  have h0 : 0 ≤ unity / x := Int.ediv_nonneg hu (by omega)
  unfold arccotT arccot arccotInit
  rw [hfirst]
  exact arccotLoopT_eq_arccotLoop hsq ((unity / x).toNat + 1)
    { sum := unity / x, xpower := unity / x, n := 3, sign := -1 }
    h0 (show (1:Int) ≤ 3 by omega)

/-- piT agrees with π on non-negative places: the final guard-digit
division also has a non-negative dividend. -/
lemma piT_eq_pi {places : Int} (hp : 0 ≤ places) : piT places = π places := by
  obtain ⟨a5, a9, h5, h9, hpi⟩ := pi_eval hp
  have hu : 0 ≤ goExp 10 (places + 10) := goExp_nonneg (places + 10)
  have e5 : arccotT 5 (goExp 10 (places + 10)) = some a5 := by
    rw [arccotT_eq_arccot (by norm_num) hu]; exact h5
  have e9 : arccotT 239 (goExp 10 (places + 10)) = some a9 := by
    rw [arccotT_eq_arccot (by norm_num) hu]; exact h9
  have hS : 0 ≤ 4 * (a5 * 4 - a9) := machin_combination_nonneg hu h5 h9
  unfold piT
  rw [e5, e9, hpi]
  show some ((4 * (a5 * 4 - a9)).tdiv (goExp 10 10)) = _
  rw [Int.tdiv_eq_ediv hS (goExp_nonneg 10)]

/-- Claim C1: the result of π(0) is the integer 3; the result of π(5) is
314159 (the first six significant decimal digits of pi); and the result
of π(50) is the integer whose decimal digits are 3 followed by the first
50 known decimal digits of pi exactly. -/
theorem pi_known_values :
    π 0 = some 3 ∧ π 5 = some 314159 ∧
    π 50 = some 314159265358979323846264338327950288419716939937510 := by
  refine ⟨by decide, by decide, by decide⟩

/-- Claim C2: for every non-negative places, π(places) is
(16 * arccot(5, unity) - 4 * arccot(239, unity)) divided (Euclidean
integer division, which here truncates) by 10^10, where
unity = 10^(places + 10): the code computes left = 4*arccot(5,unity),
subtracts right = arccot(239,unity), multiplies by 4 and removes the ten
guard digits. -/
theorem pi_machin_structure (places : Int) (hp : 0 ≤ places) :
    ∃ a5 a239 : Int,
      arccot 5 ((10:Int) ^ (places.toNat + 10)) = some a5 ∧
      arccot 239 ((10:Int) ^ (places.toNat + 10)) = some a239 ∧
      π places = some ((16 * a5 - 4 * a239) / 10 ^ 10) := by
  obtain ⟨a5, a9, h5, h9, hpi⟩ := pi_eval hp
  have hgo : goExp 10 (places + 10) = (10:Int) ^ (places.toNat + 10) := by
    rw [goExp_eq_pow (by omega)]
    congr 1
    omega
  have hgo10 : goExp 10 10 = (10:Int) ^ (10:Nat) := by decide
  rw [hgo] at h5 h9
  refine ⟨a5, a9, h5, h9, ?_⟩
  rw [hpi, hgo10]
  have hring : 4 * (a5 * 4 - a9) = 16 * a5 - 4 * a9 := by ring
  rw [hring]

/-- Witness for pi_machin_structure, at places = 0. -/
theorem pi_machin_structure_witness :
    ∃ a5 a239 : Int,
      arccot 5 ((10:Int) ^ ((0:Int).toNat + 10)) = some a5 ∧
      arccot 239 ((10:Int) ^ ((0:Int).toNat + 10)) = some a239 ∧
      π 0 = some ((16 * a5 - 4 * a239) / 10 ^ 10) :=
  pi_machin_structure 0 (by norm_num)

/-- Claim C3: for x at least 2 and unity at least 1, arccot runs the loop
from sum = xpower = unity div x with counter 3 and sign -1, and after k
iterations of the loop body the xpower state is unity div x^(2k+1): the
nested integer divisions compose. -/
theorem arccot_series_steps (x unity : Int) (hx : 2 ≤ x) (hu : 1 ≤ unity) :
    arccot x unity =
      arccotLoop (x * x) ((unity / x).toNat + 1)
        { sum := unity / x, xpower := unity / x, n := 3, sign := -1 } ∧
    ∀ k : Nat,
      ((arccotIter (x * x))^[k] (arccotInit x unity)).xpower
        = unity / x ^ (2 * k + 1) := by
  refine ⟨rfl, ?_⟩
  intro k
  induction k with
  | zero =>
    show (arccotInit x unity).xpower = unity / x ^ (2 * 0 + 1)
    norm_num [arccotInit]
  | succ n ihn =>
    rw [Function.iterate_succ_apply']
    have hstep :
        (arccotIter (x * x) ((arccotIter (x * x))^[n] (arccotInit x unity))).xpower
          = ((arccotIter (x * x))^[n] (arccotInit x unity)).xpower / (x * x) := rfl
    rw [hstep, ihn]
    have hpow : (0:Int) ≤ x ^ (2 * n + 1) := pow_nonneg (by omega) _
    rw [ediv_ediv_of_nonneg (by omega) hpow (mul_self_nonneg x)]
    have hexp : x ^ (2 * n + 1) * (x * x) = x ^ (2 * (n + 1) + 1) := by
      ring
    rw [hexp]

/-- Witness for arccot_series_steps, at x = 2, unity = 1, k = 1. -/
theorem arccot_series_steps_witness :
    ((arccotIter (2 * 2))^[1] (arccotInit 2 1)).xpower = 1 / (2:Int) ^ (2 * 1 + 1) :=
  (arccot_series_steps 2 1 (by norm_num) (by norm_num)).2 1

/-- Claim C4: for x at least 2 and unity at least 1 the series loop of
arccot reaches a zero term after finitely many iterations (xpower is cut
by x^2 each step while staying non-negative), so arccot returns a value:
the fuel bound is never exhausted. -/
theorem arccot_terminates (x unity : Int) (hx : 2 ≤ x) (hu : 1 ≤ unity) :
    ∃ r : Int, arccot x unity = some r :=
  arccot_isSome hx (by omega)

/-- Witness for arccot_terminates, at x = 2, unity = 1. -/
theorem arccot_terminates_witness : ∃ r : Int, arccot 2 1 = some r :=
  arccot_terminates 2 1 (by norm_num) (by norm_num)

/-- Claim C5: every division performed by arccot and by π has a
non-negative dividend and divisor, so the Euclidean division of Go's
big.Int.Div coincides with truncation toward zero at every site:
replacing every division by Int.tdiv changes nothing on the documented
domain. -/
theorem truncating_division_sites :
    (∀ x unity : Int, 2 ≤ x → 0 ≤ unity → arccotT x unity = arccot x unity) ∧
    ∀ places : Int, 0 ≤ places → piT places = π places :=
  ⟨fun _ _ hx hu => arccotT_eq_arccot hx hu, fun _ hp => piT_eq_pi hp⟩

/-- Witness for truncating_division_sites, at x = 2, unity = 1 and
places = 0. -/
theorem truncating_division_sites_witness :
    arccotT 2 1 = arccot 2 1 ∧ piT 0 = π 0 :=
  ⟨truncating_division_sites.1 2 1 (by norm_num) (by norm_num),
   truncating_division_sites.2 0 (by norm_num)⟩

/-- Claim C6: π is total on non-negative places: the computation
completes and returns a value (no division ever has a zero divisor, and
places = 0 is in particular valid, with unity = 10^10). -/
theorem pi_total (places : Int) (hp : 0 ≤ places) :
    ∃ v : Int, π places = some v := by
  obtain ⟨a5, a9, _, _, hpi⟩ := pi_eval hp
  exact ⟨_, hpi⟩

/-- Witness for pi_total, at places = 0. -/
theorem pi_total_witness : ∃ v : Int, π 0 = some v :=
  pi_total 0 (by norm_num)

/-- Claim C8: π is a pure function of its argument: two calls with the
same argument produce identical results. -/
theorem pi_deterministic (p q : Int) (h : p = q) : π p = π q :=
  congrArg π h

/-- Witness for pi_deterministic, at 0. -/
theorem pi_deterministic_witness : π 0 = π 0 :=
  pi_deterministic 0 0 rfl

/-- Claim C9: for every non-negative places the result of π lies between
3 * 10^places (inclusive) and 4 * 10^places (exclusive): its decimal
representation is the digit 3 followed by exactly places further digits,
which is what main relies on when it prints "3." and the remaining
characters of the integer. -/
theorem pi_leading_digit (places : Int) (hp : 0 ≤ places) :
    ∃ v : Int, π places = some v ∧
      3 * 10 ^ places.toNat ≤ v ∧ v < 4 * 10 ^ places.toNat := by
  obtain ⟨a5, a9, h5, h9, hpi⟩ := pi_eval hp
  have hu : 0 ≤ goExp 10 (places + 10) := goExp_nonneg (places + 10)
  have b5 := arccot_bounds (x := 5) (by norm_num) hu h5
  have b9 := arccot_bounds (x := 239) (by norm_num) hu h9
  have hgo10 : goExp 10 10 = (10000000000 : Int) := by decide
  have hsplit : goExp 10 (places + 10) = 10 ^ places.toNat * 10000000000 := by
    rw [goExp_eq_pow (by omega)]
    rw [show (places + 10).toNat = places.toNat + 10 by omega, pow_add]
    norm_num
  have hw1 : (1:Int) ≤ 10 ^ places.toNat := one_le_pow₀ (by norm_num)
  refine ⟨4 * (a5 * 4 - a9) / goExp 10 10, hpi, ?_, ?_⟩
  · rw [hgo10]
    rw [hsplit] at b5 b9
    omega
  · rw [hgo10]
    rw [hsplit] at b5 b9
    omega

/-- Witness for pi_leading_digit, at places = 0. -/
theorem pi_leading_digit_witness :
    ∃ v : Int, π 0 = some v ∧
      3 * 10 ^ (0:Int).toNat ≤ v ∧ v < 4 * 10 ^ (0:Int).toNat :=
  pi_leading_digit 0 (by norm_num)

/-- Claim C10: for every negative places, π still terminates and returns
0: for -10 <= places < 0 the scale 10^(places+10) is too small for any
digit to survive the final division by 10^10, and for places < -10 the
Exp of Go's big.Int with a negative exponent yields unity = 1, making
both arccot calls return 0. -/
theorem pi_negative_places (places : Int) (h : places < 0) :
    π places = some 0 ∧
    (places + 10 < 0 → goExp 10 (places + 10) = 1 ∧
      arccot 5 1 = some 0 ∧ arccot 239 1 = some 0) := by
  refine ⟨?_, fun h10 => ⟨if_pos h10, by decide, by decide⟩⟩
  by_cases h10 : places + 10 < 0
  · have hg : goExp 10 (places + 10) = 1 := if_pos h10
    unfold π
    rw [hg]
    decide
  · have hlb : -10 ≤ places := by omega
    interval_cases places <;> decide

/-- Witness for pi_negative_places, at places = -1. -/
theorem pi_negative_places_witness :
    π (-1) = some 0 ∧
    ((-1:Int) + 10 < 0 → goExp 10 ((-1:Int) + 10) = 1 ∧
      arccot 5 1 = some 0 ∧ arccot 239 1 = some 0) :=
  pi_negative_places (-1) (by norm_num)
